import Mathlib

/-!
Verification of the distiller-cm5-sdk e-ink pipeline: bit-packing, dithering,
packed-buffer geometric transforms, the image cache, and crop-center scaling,
shallowly embedded from `hardware/eink/dithering.py` and `hardware/eink/display.py`.
-/

namespace Distiller

/-- One pixel's bit under the packing threshold: `1` when the grayscale value
exceeds 127, else `0` (from `pack_1bit_data`: `bits = (binary_data > 127)`). -/
def pixBit (v : Nat) : Nat := if 127 < v then 1 else 0

/-- MSB-first read of the bit at linear pixel index `idx` of a packed byte
buffer, the Python idiom `(data[idx // 8] >> (7 - idx % 8)) & 1`. -/
def getBitAt (data : List Nat) (idx : Nat) : Nat :=
  if (data.getD (idx / 8) 0).testBit (7 - idx % 8) then 1 else 0

/-- Split a flat bit list into consecutive groups of eight, as the packing loop
`for i in range(0, len(bits_flat), 8)` does. -/
def chunk8 (bits : List Nat) : List (List Nat) :=
  if h : bits = [] then []
  else bits.take 8 :: chunk8 (bits.drop 8)
termination_by bits.length
decreasing_by
  have hp : 0 < bits.length := List.length_pos.mpr h
  simp only [List.length_drop]
  omega

/-- Pack one group of eight 0/1 bits into a byte, MSB first: the inner loop
`byte_val |= 1 << (7 - j)` over `j < 8`, whose or-accumulation of disjoint
powers of two is this sum. -/
def packByte (b : List Nat) : Nat :=
  128 * b.getD 0 0 + 64 * b.getD 1 0 + 32 * b.getD 2 0 + 16 * b.getD 3 0 +
    8 * b.getD 4 0 + 4 * b.getD 5 0 + 2 * b.getD 6 0 + b.getD 7 0

/-- Stage one of `pack_1bit_data`: `bits = (binary_data > 127)` flattened
row-major (`bits.flatten()`). -/
def packBits (m : List (List Nat)) : List Nat := m.flatten.map pixBit

/-- Stage two of `pack_1bit_data`: `np.pad(bits_flat, (0, padding))` with
`padding = 8 - total % 8` when the pixel count is not a multiple of eight. -/
def packPadded (m : List (List Nat)) : List Nat :=
  if (packBits m).length % 8 ≠ 0 then
    packBits m ++ List.replicate (8 - (packBits m).length % 8) 0
  else packBits m

/-- Shallow embedding of `pack_1bit_data` from `dithering.py`: threshold every
pixel at 127, flatten row-major, zero-pad the tail to a multiple of eight bits,
and pack MSB first, eight bits per byte. -/
def pack_1bit_data (m : List (List Nat)) : List Nat :=
  (chunk8 (packPadded m)).map packByte

theorem chunk8_nil : chunk8 [] = [] := by
  rw [chunk8]
  simp

theorem getD_eq_opt {α : Type} (l : List α) (n : Nat) (d : α) :
    l.getD n d = (l[n]?).getD d := by
  by_cases h : n < l.length
  · rw [List.getD_eq_getElem l d h, List.getElem?_eq_getElem h, Option.getD_some]
  · rw [List.getD_eq_default l d (by omega), List.getElem?_eq_none (by omega), Option.getD_none]

theorem getD_take {α : Type} (l : List α) (n j : Nat) (d : α) (hj : j < n) :
    (l.take n).getD j d = l.getD j d := by
  rw [getD_eq_opt, getD_eq_opt, List.getElem?_take_of_lt hj]

theorem getD_drop {α : Type} (l : List α) (n j : Nat) (d : α) :
    (l.drop n).getD j d = l.getD (n + j) d := by
  rw [getD_eq_opt, getD_eq_opt, List.getElem?_drop]

theorem getD_replicate_zero (n j : Nat) : (List.replicate n (0 : Nat)).getD j 0 = 0 := by
  by_cases h : j < n
  · rw [List.getD_eq_getElem _ _ (by simpa using h), List.getElem_replicate]
  · rw [List.getD_eq_default _ _ (by simpa using h)]

theorem chunk8_length (l : List Nat) : (chunk8 l).length = (l.length + 7) / 8 := by
  induction l using chunk8.induct with
  | case1 => simp [chunk8_nil]
  | case2 l hne ih =>
    rw [chunk8, dif_neg hne]
    have hp : 0 < l.length := List.length_pos.mpr hne
    simp only [List.length_cons, ih, List.length_drop]
    omega

theorem chunk8_getD (l : List Nat) (k : Nat) :
    (chunk8 l).getD k [] = (l.drop (8 * k)).take 8 := by
  induction l using chunk8.induct generalizing k with
  | case1 => simp [chunk8_nil]
  | case2 l hne ih =>
    rw [chunk8, dif_neg hne]
    cases k with
    | zero => simp
    | succ k =>
      rw [List.getD_cons_succ, ih, List.drop_drop]
      have h8 : 8 + 8 * k = 8 * (k + 1) := by ring
      rw [h8]

theorem packByte_nil : packByte [] = 0 := rfl

theorem packed_getD (l : List Nat) (k : Nat) :
    ((chunk8 l).map packByte).getD k 0 = packByte ((l.drop (8 * k)).take 8) := by
  have h := List.getD_map (chunk8 l) [] packByte (n := k)
  rw [packByte_nil] at h
  rw [h, chunk8_getD]

theorem getD_le_one (b : List Nat) (hb : ∀ v ∈ b, v ≤ 1) (i : Nat) : b.getD i 0 ≤ 1 := by
  by_cases hi : i < b.length
  · rw [List.getD_eq_getElem b 0 hi]
    exact hb _ (List.getElem_mem hi)
  · rw [List.getD_eq_default b 0 (by omega)]
    omega

theorem byte_bit_extract (b : List Nat) (hb : ∀ i, b.getD i 0 ≤ 1) (j : Nat) (hj : j < 8) :
    (if (packByte b).testBit (7 - j) then 1 else 0) = b.getD j 0 := by
  have h0 := hb 0
  have h1 := hb 1
  have h2 := hb 2
  have h3 := hb 3
  have h4 := hb 4
  have h5 := hb 5
  have h6 := hb 6
  have h7 := hb 7
  unfold packByte
  generalize e0 : b.getD 0 0 = b0 at h0 ⊢
  generalize e1 : b.getD 1 0 = b1 at h1 ⊢
  generalize e2 : b.getD 2 0 = b2 at h2 ⊢
  generalize e3 : b.getD 3 0 = b3 at h3 ⊢
  generalize e4 : b.getD 4 0 = b4 at h4 ⊢
  generalize e5 : b.getD 5 0 = b5 at h5 ⊢
  generalize e6 : b.getD 6 0 = b6 at h6 ⊢
  generalize e7 : b.getD 7 0 = b7 at h7 ⊢
  rw [Nat.testBit_to_div_mod]
  interval_cases j <;>
    · simp only [e0, e1, e2, e3, e4, e5, e6, e7, decide_eq_true_eq]
      norm_num
      split <;> omega

theorem pack_getBit_padded (p : List Nat) (hle : ∀ i, p.getD i 0 ≤ 1) (idx : Nat) :
    getBitAt ((chunk8 p).map packByte) idx = p.getD idx 0 := by
  unfold getBitAt
  rw [packed_getD]
  have hmod : idx % 8 < 8 := Nat.mod_lt _ (by omega)
  have hchunk : ∀ i, ((p.drop (8 * (idx / 8))).take 8).getD i 0 ≤ 1 := by
    intro i
    by_cases hi : i < 8
    · rw [getD_take _ _ _ _ hi, getD_drop]
      exact hle _
    · rw [List.getD_eq_default _ _ (le_trans (List.length_take_le _ _) (by omega))]
      omega
  rw [byte_bit_extract _ hchunk (idx % 8) hmod, getD_take _ _ _ _ hmod, getD_drop]
  congr 1
  omega

theorem packBits_le_one (m : List (List Nat)) (i : Nat) : (packBits m).getD i 0 ≤ 1 := by
  apply getD_le_one
  intro v hv
  obtain ⟨u, _, rfl⟩ := List.mem_map.mp hv
  unfold pixBit
  split <;> omega

theorem packPadded_le_one (m : List (List Nat)) (i : Nat) : (packPadded m).getD i 0 ≤ 1 := by
  unfold packPadded
  split
  · apply getD_le_one
    intro v hv
    rcases List.mem_append.mp hv with hv | hv
    · obtain ⟨u, _, rfl⟩ := List.mem_map.mp hv
      unfold pixBit
      split <;> omega
    · rw [List.eq_of_mem_replicate hv]
      omega
  · exact packBits_le_one m i

theorem packPadded_getD_lt (m : List (List Nat)) (i : Nat)
    (hi : i < (packBits m).length) :
    (packPadded m).getD i 0 = (packBits m).getD i 0 := by
  unfold packPadded
  split
  · exact List.getD_append _ _ _ _ hi
  · rfl

theorem packPadded_getD_ge (m : List (List Nat)) (i : Nat)
    (hi : (packBits m).length ≤ i) :
    (packPadded m).getD i 0 = 0 := by
  unfold packPadded
  split
  · rw [List.getD_append_right _ _ _ _ hi, getD_replicate_zero]
  · exact List.getD_eq_default _ _ hi

theorem packPadded_length (m : List (List Nat)) :
    (packPadded m).length = 8 * (((packBits m).length + 7) / 8) := by
  unfold packPadded
  split
  · simp only [List.length_append, List.length_replicate]
    omega
  · omega

theorem packBits_length (m : List (List Nat)) (w h : Nat)
    (hh : m.length = h) (hw : ∀ r ∈ m, r.length = w) :
    (packBits m).length = h * w := by
  unfold packBits
  rw [List.length_map, List.length_flatten]
  have hml : m.map List.length = List.replicate h w := by
    refine List.eq_replicate_iff.mpr ⟨by simpa using hh, ?_⟩
    intro b hb
    obtain ⟨r, hr, rfl⟩ := List.mem_map.mp hb
    exact hw r hr
  rw [hml, List.sum_replicate, smul_eq_mul]

theorem packBits_getD (m : List (List Nat)) (i : Nat) :
    (packBits m).getD i 0 = pixBit (m.flatten.getD i 0) := by
  have hmap := List.getD_map m.flatten 0 pixBit (n := i)
  rw [show pixBit 0 = 0 from rfl] at hmap
  exact hmap

theorem flatten_getD_uniform (m : List (List Nat)) (w : Nat)
    (hw : ∀ r ∈ m, r.length = w) (y x : Nat) (hy : y < m.length) (hx : x < w) :
    m.flatten.getD (y * w + x) 0 = (m.getD y []).getD x 0 := by
  induction m generalizing y with
  | nil => simp at hy
  | cons r t ih =>
    have hr : r.length = w := hw r (by simp)
    cases y with
    | zero =>
      rw [List.flatten_cons, Nat.zero_mul, Nat.zero_add, List.getD_cons_zero,
        List.getD_append _ _ _ _ (by omega)]
    | succ y' =>
      rw [List.flatten_cons, List.getD_cons_succ, Nat.succ_mul,
        List.getD_append_right _ _ _ _ (by omega)]
      have hidx : y' * w + w + x - r.length = y' * w + x := by omega
      rw [hidx]
      exact ih (fun s hs => hw s (by simp [hs])) y' (by simpa using hy)

/-- C1: `pack_1bit_data` on an `h×w` grayscale matrix returns exactly
`ceil(w*h/8)` bytes; the bit for the pixel at row-major index `idx = y*w+x`
sits in byte `idx/8` at MSB-first bit position `7-(idx%8)` and is `1` exactly
when the pixel value exceeds 127; all padding bits past index `w*h-1` are
zero. -/
theorem pack_1bit_data_correct (m : List (List Nat)) (w h : Nat)
    (hh : m.length = h) (hw : ∀ r ∈ m, r.length = w) :
    (pack_1bit_data m).length = (w * h + 7) / 8 ∧
    (∀ y x, y < h → x < w →
      getBitAt (pack_1bit_data m) (y * w + x) = pixBit ((m.getD y []).getD x 0)) ∧
    (∀ i, w * h ≤ i → getBitAt (pack_1bit_data m) i = 0) := by
  have hbl : (packBits m).length = h * w := packBits_length m w h hh hw
  have hcomm : w * h = h * w := Nat.mul_comm w h
  refine ⟨?_, ?_, ?_⟩
  · unfold pack_1bit_data
    rw [List.length_map, chunk8_length, packPadded_length, hbl]
    omega
  · intro y x hy hx
    have hidx : y * w + x < h * w := by
      have h1 : y * w + x < (y + 1) * w := by
        rw [Nat.succ_mul]
        omega
      exact lt_of_lt_of_le h1 (Nat.mul_le_mul_right w hy)
    unfold pack_1bit_data
    rw [pack_getBit_padded _ (packPadded_le_one m), packPadded_getD_lt m _ (by omega),
      packBits_getD, flatten_getD_uniform m w hw y x (by omega) hx]
  · intro i hi
    unfold pack_1bit_data
    rw [pack_getBit_padded _ (packPadded_le_one m), packPadded_getD_ge m _ (by omega)]

/-- Witness for C1 at the concrete 1×3 matrix `[[200, 0, 130]]`. -/
theorem pack_1bit_data_correct_witness :
    (pack_1bit_data [[200, 0, 130]]).length = (3 * 1 + 7) / 8 := by
  exact (pack_1bit_data_correct [[200, 0, 130]] 3 1 (by decide) (by decide)).1

/-- Pointwise update of a two-index working buffer, modelling the numpy
assignment `buffer[y, x] = v`. -/
def upd (b : Nat → Nat → Int) (y x : Nat) (v : Int) : Nat → Nat → Int :=
  fun y' x' => if y' = y ∧ x' = x then v else b y' x'

/-- In-place accumulation `buffer[y, x] += v`. -/
def accum (b : Nat → Nat → Int) (y x : Nat) (v : Int) : Nat → Nat → Int :=
  upd b y x (b y x + v)

/-- One pixel of the Floyd-Steinberg loop body from
`apply_floyd_steinberg_dithering`: quantize `buffer[y, x]` against 127, store
the 0/255 result, and diffuse the arithmetic-shifted error `(q_err * k) >> 4`
(floor division by 16, as numpy's arithmetic right shift on int16) to the
right, below-left, below and below-right neighbours that are in bounds. -/
def fsStep (w h : Nat) (b : Nat → Nat → Int) (y x : Nat) : Nat → Nat → Int :=
  let old := b y x
  let np : Int := if 127 ≤ old then 255 else 0
  let e := old - np
  let b1 := upd b y x np
  let b2 := if x + 1 < w then accum b1 y (x + 1) (Int.fdiv (e * 7) 16) else b1
  let b3 := if y + 1 < h ∧ 0 < x then accum b2 (y + 1) (x - 1) (Int.fdiv (e * 3) 16) else b2
  let b4 := if y + 1 < h then accum b3 (y + 1) x (Int.fdiv (e * 5) 16) else b3
  if y + 1 < h ∧ x + 1 < w then accum b4 (y + 1) (x + 1) (Int.fdiv (e * 1) 16) else b4

/-- The row-major double loop `for y in range(height): for x in range(width)`
of `apply_floyd_steinberg_dithering`. -/
def fsRun (w h : Nat) (b : Nat → Nat → Int) : Nat → Nat → Int :=
  (List.range h).foldl
    (fun b y => (List.range w).foldl (fun b x => fsStep w h b y x) b) b

/-- Shallow embedding of `apply_floyd_steinberg_dithering`: the signed working
buffer seeded with the grayscale values, processed row-major.  The final
`astype(np.uint8)` is the identity on the 0/255 values the claim is about. -/
def apply_floyd_steinberg_dithering (w h : Nat) (g : Nat → Nat → Nat) :
    Nat → Nat → Int :=
  fsRun w h (fun y x => (g y x : Int))

/-- Positions strictly before `(Y, X)` in row-major order hold a quantized
0/255 value. -/
def fsDone (w h : Nat) (b : Nat → Nat → Int) (Y X : Nat) : Prop :=
  ∀ y x, y < h → x < w → (y < Y ∨ (y = Y ∧ x < X)) → b y x = 0 ∨ b y x = 255

theorem ite_app2 (c : Prop) [Decidable c] (f g : Nat → Nat → Int) (y x : Nat) :
    (if c then f else g) y x = if c then f y x else g y x := by
  split <;> rfl

theorem upd_app_ne (b : Nat → Nat → Int) (y x : Nat) (v : Int) (y' x' : Nat)
    (hne : ¬(y' = y ∧ x' = x)) : upd b y x v y' x' = b y' x' := by
  unfold upd
  exact if_neg hne

theorem upd_app_self (b : Nat → Nat → Int) (y x : Nat) (v : Int) :
    upd b y x v y x = v := by
  unfold upd
  exact if_pos ⟨rfl, rfl⟩

theorem accum_app_ne (b : Nat → Nat → Int) (y x : Nat) (v : Int) (y' x' : Nat)
    (hne : ¬(y' = y ∧ x' = x)) : accum b y x v y' x' = b y' x' := by
  unfold accum
  exact upd_app_ne _ _ _ _ _ _ hne

theorem fsStep_earlier (w h : Nat) (b : Nat → Nat → Int) (y x y' x' : Nat)
    (hord : y' < y ∨ (y' = y ∧ x' < x)) : fsStep w h b y x y' x' = b y' x' := by
  simp only [fsStep]
  rw [ite_app2, accum_app_ne _ _ _ _ _ _ (by omega), ite_self,
    ite_app2, accum_app_ne _ _ _ _ _ _ (by omega), ite_self,
    ite_app2, accum_app_ne _ _ _ _ _ _ (by omega), ite_self,
    ite_app2, accum_app_ne _ _ _ _ _ _ (by omega), ite_self,
    upd_app_ne _ _ _ _ _ _ (by omega)]

theorem fsStep_self (w h : Nat) (b : Nat → Nat → Int) (y x : Nat) :
    fsStep w h b y x y x = if 127 ≤ b y x then 255 else 0 := by
  simp only [fsStep]
  rw [ite_app2, accum_app_ne _ _ _ _ _ _ (by omega), ite_self,
    ite_app2, accum_app_ne _ _ _ _ _ _ (by omega), ite_self,
    ite_app2, accum_app_ne _ _ _ _ _ _ (by omega), ite_self,
    ite_app2, accum_app_ne _ _ _ _ _ _ (by omega), ite_self,
    upd_app_self]

theorem fsDone_step (w h : Nat) (b : Nat → Nat → Int) (y x : Nat)
    (hd : fsDone w h b y x) : fsDone w h (fsStep w h b y x) y (x + 1) := by
  intro y' x' hy hx hord
  by_cases hcur : y' = y ∧ x' = x
  · obtain ⟨rfl, rfl⟩ := hcur
    rw [fsStep_self]
    split
    · right
      rfl
    · left
      rfl
  · have hord' : y' < y ∨ (y' = y ∧ x' < x) := by omega
    rw [fsStep_earlier _ _ _ _ _ _ _ hord']
    exact hd y' x' hy hx hord'

theorem fsDone_row (w h : Nat) (b : Nat → Nat → Int) (y : Nat)
    (hd : fsDone w h b y 0) (n : Nat) :
    fsDone w h ((List.range n).foldl (fun b x => fsStep w h b y x) b) y n := by
  induction n with
  | zero => simpa using hd
  | succ n ih =>
    rw [List.range_succ, List.foldl_append]
    simp only [List.foldl_cons, List.foldl_nil]
    exact fsDone_step w h _ y n ih

theorem fsDone_next_row (w h : Nat) (b : Nat → Nat → Int) (y : Nat)
    (hd : fsDone w h b y w) : fsDone w h b (y + 1) 0 := by
  intro y' x' hy hx hord
  exact hd y' x' hy hx (by omega)

theorem fsDone_rows (w h : Nat) (b : Nat → Nat → Int) (H : Nat)
    (hd : fsDone w h b 0 0) :
    fsDone w h
      ((List.range H).foldl
        (fun b y => (List.range w).foldl (fun b x => fsStep w h b y x) b) b)
      H 0 := by
  induction H with
  | zero => simpa using hd
  | succ H ih =>
    rw [List.range_succ, List.foldl_append]
    simp only [List.foldl_cons, List.foldl_nil]
    exact fsDone_next_row w h _ H (fsDone_row w h _ H ih w)

/-- C2: Floyd-Steinberg dithering visits pixels row-major over a signed
working buffer seeded with the grayscale values, quantizing with
`new = 255 if buffer[p] >= 127 else 0` and diffusing `(err*k) >> 4` to the
in-bounds right, below-left, below and below-right neighbours (encoded in
`fsStep`/`fsRun`); every in-bounds entry of the returned matrix is 0 or 255. -/
theorem apply_floyd_steinberg_dithering_binary (w h : Nat) (g : Nat → Nat → Nat)
    (y x : Nat) (hy : y < h) (hx : x < w) :
    apply_floyd_steinberg_dithering w h g y x = 0 ∨
      apply_floyd_steinberg_dithering w h g y x = 255 := by
  have h0 : fsDone w h (fun y x => ((g y x : Nat) : Int)) 0 0 := by
    intro y' x' _ _ hord
    omega
  have hall := fsDone_rows w h _ h h0
  unfold apply_floyd_steinberg_dithering fsRun
  exact hall y x hy hx (by omega)

/-- Witness for C2: the single pixel of a 1×1 mid-gray image is quantized to
0 or 255. -/
theorem apply_floyd_steinberg_dithering_binary_witness :
    apply_floyd_steinberg_dithering 1 1 (fun _ _ => 128) 0 0 = 0 ∨
      apply_floyd_steinberg_dithering 1 1 (fun _ _ => 128) 0 0 = 255 :=
  apply_floyd_steinberg_dithering_binary 1 1 (fun _ _ => 128) 0 0
    (by decide) (by decide)

/-- MSB-first bit set at linear pixel index `idx` of a packed destination
buffer: `dst_data[dst_byte_idx] |= (1 << dst_bit_pos)`. -/
def setBitAt (data : List Nat) (idx : Nat) : List Nat :=
  data.set (idx / 8) ((data.getD (idx / 8) 0) ||| (1 <<< (7 - idx % 8)))

/-- The shared per-pixel loop of `rotate_bitpacked_ccw_90` and
`flip_bitpacked_horizontal`: scan the source row-major, and for every set
source bit set the destination bit at index `f y x` of a zero-initialized
buffer of `dstBytes` bytes. -/
def bitScatter (src : List Nat) (w h dstBytes : Nat) (f : Nat → Nat → Nat) :
    List Nat :=
  (List.range h).foldl
    (fun dst y =>
      (List.range w).foldl
        (fun dst x =>
          if getBitAt src (y * w + x) = 1 then setBitAt dst (f y x) else dst)
        dst)
    (List.replicate dstBytes 0)

/-- Shallow embedding of `rotate_bitpacked_ccw_90` from `display.py`: rejects
buffers shorter than `ceil(w*h/8)`, otherwise scatters source pixel `(sx, sy)`
to destination coordinates `dx = sy, dy = w-1-sx` in an `(h, w)`-dimension
buffer, whose linear bit index is `dy*h + dx`. -/
def rotate_bitpacked_ccw_90 (src : List Nat) (w h : Nat) : Option (List Nat) :=
  if src.length < (w * h + 7) / 8 then none
  else some (bitScatter src w h ((h * w + 7) / 8) (fun sy sx => (w - 1 - sx) * h + sy))

/-- Shallow embedding of `flip_bitpacked_horizontal` from `display.py`:
rejects buffers shorter than `ceil(w*h/8)`, otherwise scatters source pixel
`(x, y)` to the mirrored column `w-1-x` of the same row. -/
def flip_bitpacked_horizontal (src : List Nat) (w h : Nat) : Option (List Nat) :=
  if src.length < (w * h + 7) / 8 then none
  else some (bitScatter src w h ((w * h + 7) / 8) (fun y x => y * w + (w - 1 - x)))

/-- Shallow embedding of `invert_bitpacked_colors`: bytewise
`~byte & 0xFF`, which on integers equals `255 - byte % 256`. -/
def invert_bitpacked_colors (src : List Nat) : List Nat :=
  src.map (fun b => 255 - b % 256)

theorem getBitAt_cases (d : List Nat) (i : Nat) :
    getBitAt d i = 0 ∨ getBitAt d i = 1 := by
  unfold getBitAt
  split
  · right
    rfl
  · left
    rfl

theorem setBitAt_length (d : List Nat) (j : Nat) :
    (setBitAt d j).length = d.length := by
  unfold setBitAt
  exact List.length_set d _ _

theorem setBitAt_oob (d : List Nat) (j : Nat) (hlen : d.length ≤ j / 8) :
    setBitAt d j = d := by
  unfold setBitAt
  exact List.set_eq_of_length_le hlen

theorem setBitAt_getD_self (d : List Nat) (j : Nat) (hlen : j / 8 < d.length) :
    (setBitAt d j).getD (j / 8) 0 = d.getD (j / 8) 0 ||| (1 <<< (7 - j % 8)) := by
  unfold setBitAt
  rw [getD_eq_opt, List.getElem?_set_self hlen, Option.getD_some]

theorem getBitAt_setBitAt_ne (d : List Nat) (i j : Nat) (hne : i ≠ j) :
    getBitAt (setBitAt d j) i = getBitAt d i := by
  by_cases hlen : j / 8 < d.length
  · by_cases hb : i / 8 = j / 8
    · unfold getBitAt
      rw [hb, setBitAt_getD_self d j hlen, Nat.testBit_or,
        show (1 <<< (7 - j % 8) : Nat) = 2 ^ (7 - j % 8) by rw [Nat.shiftLeft_eq, one_mul],
        Nat.testBit_two_pow_of_ne (by omega : 7 - j % 8 ≠ 7 - i % 8)]
      simp
    · unfold getBitAt
      have hbyte : (setBitAt d j).getD (i / 8) 0 = d.getD (i / 8) 0 := by
        unfold setBitAt
        rw [getD_eq_opt, List.getElem?_set_ne (by omega), ← getD_eq_opt]
      rw [hbyte]
  · rw [setBitAt_oob d j (by omega)]

theorem getBitAt_setBitAt_self (d : List Nat) (j : Nat) (hlen : j / 8 < d.length) :
    getBitAt (setBitAt d j) j = 1 := by
  unfold getBitAt
  rw [setBitAt_getD_self d j hlen, Nat.testBit_or,
    show (1 <<< (7 - j % 8) : Nat) = 2 ^ (7 - j % 8) by rw [Nat.shiftLeft_eq, one_mul],
    Nat.testBit_two_pow_self]
  simp

theorem getD_lt_256 (d : List Nat) (hd : ∀ v ∈ d, v < 256) (k : Nat) :
    d.getD k 0 < 256 := by
  by_cases hk : k < d.length
  · rw [List.getD_eq_getElem d 0 hk]
    exact hd _ (List.getElem_mem hk)
  · rw [List.getD_eq_default d 0 (by omega)]
    omega

theorem setBitAt_lt_256 (d : List Nat) (j : Nat) (hd : ∀ v ∈ d, v < 256) :
    ∀ v ∈ setBitAt d j, v < 256 := by
  intro v hv
  unfold setBitAt at hv
  rcases List.mem_or_eq_of_mem_set hv with hv | rfl
  · exact hd v hv
  · have h1 : d.getD (j / 8) 0 < 2 ^ 8 := getD_lt_256 d hd _
    have h2 : (1 <<< (7 - j % 8) : Nat) < 2 ^ 8 := by
      rw [Nat.shiftLeft_eq, one_mul]
      have : 7 - j % 8 ≤ 7 := by omega
      calc 2 ^ (7 - j % 8) ≤ 2 ^ 7 := Nat.pow_le_pow_right (by omega) this
        _ < 2 ^ 8 := by omega
    exact Nat.or_lt_two_pow h1 h2

/-- Invariant of the scatter loop: destination length and byte bounds hold,
pixels processed before `(Y, X)` in row-major order carry their source bit,
unprocessed pixel targets are still 0, and non-target indices are 0. -/
def scatInv (src : List Nat) (w h dstBytes : Nat) (f : Nat → Nat → Nat)
    (dst : List Nat) (Y X : Nat) : Prop :=
  dst.length = dstBytes ∧
  (∀ v ∈ dst, v < 256) ∧
  (∀ y x, y < h → x < w → (y < Y ∨ (y = Y ∧ x < X)) →
    getBitAt dst (f y x) = getBitAt src (y * w + x)) ∧
  (∀ y x, y < h → x < w → ¬(y < Y ∨ (y = Y ∧ x < X)) → getBitAt dst (f y x) = 0) ∧
  (∀ i, (∀ y x, y < h → x < w → f y x ≠ i) → getBitAt dst i = 0)

theorem scatInv_init (src : List Nat) (w h dstBytes : Nat) (f : Nat → Nat → Nat) :
    scatInv src w h dstBytes f (List.replicate dstBytes 0) 0 0 := by
  have hz : ∀ i, getBitAt (List.replicate dstBytes 0) i = 0 := by
    intro i
    unfold getBitAt
    rw [getD_replicate_zero, Nat.zero_testBit]
    rfl
  refine ⟨List.length_replicate _ _, ?_, ?_, ?_, ?_⟩
  · intro v hv
    rw [List.eq_of_mem_replicate hv]
    omega
  · intro y x _ _ hord
    omega
  · intro y x _ _ _
    exact hz _
  · intro i _
    exact hz _

theorem scatInv_step (src : List Nat) (w h dstBytes : Nat) (f : Nat → Nat → Nat)
    (hflt : ∀ y x, y < h → x < w → f y x < 8 * dstBytes)
    (hinj : ∀ y x y' x', y < h → x < w → y' < h → x' < w →
      f y x = f y' x' → y = y' ∧ x = x')
    (dst : List Nat) (Y X : Nat) (hY : Y < h) (hX : X < w)
    (hinv : scatInv src w h dstBytes f dst Y X) :
    scatInv src w h dstBytes f
      (if getBitAt src (Y * w + X) = 1 then setBitAt dst (f Y X) else dst)
      Y (X + 1) := by
  obtain ⟨hlen, hlt, hdone, hpend, hoth⟩ := hinv
  have hsplit8 : f Y X / 8 < dst.length := by
    have := hflt Y X hY hX
    omega
  by_cases hbit : getBitAt src (Y * w + X) = 1
  · rw [if_pos hbit]
    refine ⟨by rw [setBitAt_length, hlen], setBitAt_lt_256 _ _ hlt, ?_, ?_, ?_⟩
    · intro y x hy hx hord
      by_cases hcur : y = Y ∧ x = X
      · obtain ⟨rfl, rfl⟩ := hcur
        rw [getBitAt_setBitAt_self _ _ hsplit8, hbit]
      · have hne : f y x ≠ f Y X := fun he => hcur (hinj _ _ _ _ hy hx hY hX he)
        rw [getBitAt_setBitAt_ne _ _ _ hne]
        exact hdone y x hy hx (by omega)
    · intro y x hy hx hord
      have hne : f y x ≠ f Y X := by
        intro he
        obtain ⟨rfl, rfl⟩ := hinj _ _ _ _ hy hx hY hX he
        omega
      rw [getBitAt_setBitAt_ne _ _ _ hne]
      exact hpend y x hy hx (by omega)
    · intro i hi
      have hne : i ≠ f Y X := fun he => hi Y X hY hX he.symm
      rw [getBitAt_setBitAt_ne _ _ _ hne]
      exact hoth i hi
  · rw [if_neg hbit]
    have hzero : getBitAt src (Y * w + X) = 0 := by
      rcases getBitAt_cases src (Y * w + X) with hc | hc
      · exact hc
      · exact absurd hc hbit
    refine ⟨hlen, hlt, ?_, ?_, hoth⟩
    · intro y x hy hx hord
      by_cases hcur : y = Y ∧ x = X
      · obtain ⟨rfl, rfl⟩ := hcur
        rw [hzero]
        exact hpend y x hy hx (by omega)
      · exact hdone y x hy hx (by omega)
    · intro y x hy hx hord
      exact hpend y x hy hx (by omega)

theorem scatInv_row (src : List Nat) (w h dstBytes : Nat) (f : Nat → Nat → Nat)
    (hflt : ∀ y x, y < h → x < w → f y x < 8 * dstBytes)
    (hinj : ∀ y x y' x', y < h → x < w → y' < h → x' < w →
      f y x = f y' x' → y = y' ∧ x = x')
    (Y : Nat) (hY : Y < h) (dst : List Nat)
    (h0 : scatInv src w h dstBytes f dst Y 0) (n : Nat) (hn : n ≤ w) :
    scatInv src w h dstBytes f
      ((List.range n).foldl
        (fun dst x => if getBitAt src (Y * w + x) = 1 then setBitAt dst (f Y x) else dst)
        dst)
      Y n := by
  induction n with
  | zero => simpa using h0
  | succ n ih =>
    rw [List.range_succ, List.foldl_append]
    simp only [List.foldl_cons, List.foldl_nil]
    exact scatInv_step src w h dstBytes f hflt hinj _ Y n hY (by omega)
      (ih (by omega))

theorem scatInv_next_row (src : List Nat) (w h dstBytes : Nat)
    (f : Nat → Nat → Nat) (dst : List Nat) (Y : Nat)
    (hinv : scatInv src w h dstBytes f dst Y w) :
    scatInv src w h dstBytes f dst (Y + 1) 0 := by
  obtain ⟨hlen, hlt, hdone, hpend, hoth⟩ := hinv
  refine ⟨hlen, hlt, ?_, ?_, hoth⟩
  · intro y x hy hx hord
    exact hdone y x hy hx (by omega)
  · intro y x hy hx hord
    exact hpend y x hy hx (by omega)

theorem scatInv_rows (src : List Nat) (w h dstBytes : Nat) (f : Nat → Nat → Nat)
    (hflt : ∀ y x, y < h → x < w → f y x < 8 * dstBytes)
    (hinj : ∀ y x y' x', y < h → x < w → y' < h → x' < w →
      f y x = f y' x' → y = y' ∧ x = x')
    (H : Nat) (hH : H ≤ h) :
    scatInv src w h dstBytes f
      ((List.range H).foldl
        (fun dst y =>
          (List.range w).foldl
            (fun dst x =>
              if getBitAt src (y * w + x) = 1 then setBitAt dst (f y x) else dst)
            dst)
        (List.replicate dstBytes 0))
      H 0 := by
  induction H with
  | zero => simpa using scatInv_init src w h dstBytes f
  | succ H ih =>
    rw [List.range_succ, List.foldl_append]
    simp only [List.foldl_cons, List.foldl_nil]
    exact scatInv_next_row src w h dstBytes f _ H
      (scatInv_row src w h dstBytes f hflt hinj H (by omega) _ (ih (by omega)) w
        (le_refl w))

theorem bitScatter_spec (src : List Nat) (w h dstBytes : Nat)
    (f : Nat → Nat → Nat)
    (hflt : ∀ y x, y < h → x < w → f y x < 8 * dstBytes)
    (hinj : ∀ y x y' x', y < h → x < w → y' < h → x' < w →
      f y x = f y' x' → y = y' ∧ x = x') :
    (bitScatter src w h dstBytes f).length = dstBytes ∧
    (∀ v ∈ bitScatter src w h dstBytes f, v < 256) ∧
    (∀ y x, y < h → x < w →
      getBitAt (bitScatter src w h dstBytes f) (f y x) = getBitAt src (y * w + x)) ∧
    (∀ i, (∀ y x, y < h → x < w → f y x ≠ i) →
      getBitAt (bitScatter src w h dstBytes f) i = 0) := by
  have hinv := scatInv_rows src w h dstBytes f hflt hinj h (le_refl h)
  obtain ⟨hlen, hlt, hdone, _, hoth⟩ := hinv
  exact ⟨hlen, hlt, fun y x hy hx => hdone y x hy hx (by omega), hoth⟩

theorem rowcol_inj {n a a' r r' : Nat} (hr : r < n) (hr' : r' < n)
    (he : a * n + r = a' * n + r') : a = a' ∧ r = r' := by
  have h0 : 0 < n := by omega
  have h1 : (a * n + r) / n = a := by
    rw [Nat.mul_comm, Nat.mul_add_div h0, Nat.div_eq_of_lt hr, Nat.add_zero]
  have h2 : (a' * n + r') / n = a' := by
    rw [Nat.mul_comm, Nat.mul_add_div h0, Nat.div_eq_of_lt hr', Nat.add_zero]
  have ha : a = a' := by rw [← h1, ← h2, he]
  subst ha
  omega

theorem rot_target_lt (w h sy sx : Nat) (hy : sy < h) (hx : sx < w) :
    (w - 1 - sx) * h + sy < w * h := by
  have h2 : (w - 1 - sx) * h ≤ (w - 1) * h :=
    Nat.mul_le_mul_right h (by omega)
  have h3 : (w - 1) * h + h = w * h := by
    have hw : w - 1 + 1 = w := by omega
    calc (w - 1) * h + h = (w - 1 + 1) * h := (Nat.succ_mul _ _).symm
      _ = w * h := by rw [hw]
  omega

theorem flip_target_lt (w h y x : Nat) (hy : y < h) (hx : x < w) :
    y * w + (w - 1 - x) < h * w := by
  have h2 : y * w + (w - 1 - x) < (y + 1) * w := by
    rw [Nat.succ_mul]
    omega
  exact lt_of_lt_of_le h2 (Nat.mul_le_mul_right w hy)

theorem rot_inj (w h : Nat) :
    ∀ sy sx sy' sx', sy < h → sx < w → sy' < h → sx' < w →
      (w - 1 - sx) * h + sy = (w - 1 - sx') * h + sy' → sy = sy' ∧ sx = sx' := by
  intro sy sx sy' sx' hy hx hy' hx' he
  obtain ⟨hcol, hrow⟩ := rowcol_inj hy hy' he
  constructor
  · exact hrow
  · omega

theorem flip_inj (w h : Nat) :
    ∀ y x y' x', y < h → x < w → y' < h → x' < w →
      y * w + (w - 1 - x) = y' * w + (w - 1 - x') → y = y' ∧ x = x' := by
  intro y x y' x' hy hx hy' hx' he
  obtain ⟨hrow, hcol⟩ := rowcol_inj (by omega : w - 1 - x < w) (by omega) he
  constructor
  · exact hrow
  · omega

/-- C3: for a source buffer of at least `ceil(w*h/8)` bytes,
`rotate_bitpacked_ccw_90` succeeds with a buffer of `ceil(h*w/8)` bytes in
which the bit of every source pixel `(sx, sy)` appears at the rotated
coordinates `dx = sy, dy = w-1-sx` of the `(h, w)`-dimension destination,
whose linear bit index is `(w-1-sx)*h + sy`. -/
theorem rotate_bitpacked_ccw_90_correct (src : List Nat) (w h : Nat)
    (hlen : (w * h + 7) / 8 ≤ src.length) :
    ∃ dst, rotate_bitpacked_ccw_90 src w h = some dst ∧
      dst.length = (h * w + 7) / 8 ∧
      ∀ sx sy, sx < w → sy < h →
        getBitAt dst ((w - 1 - sx) * h + sy) = getBitAt src (sy * w + sx) := by
  have hcomm : w * h = h * w := Nat.mul_comm w h
  have hflt : ∀ sy sx, sy < h → sx < w →
      (w - 1 - sx) * h + sy < 8 * ((h * w + 7) / 8) := by
    intro sy sx hy hx
    have := rot_target_lt w h sy sx hy hx
    omega
  have hspec := bitScatter_spec src w h ((h * w + 7) / 8)
    (fun sy sx => (w - 1 - sx) * h + sy) hflt (rot_inj w h)
  obtain ⟨hl, _, hbits, _⟩ := hspec
  refine ⟨_, ?_, hl, ?_⟩
  · unfold rotate_bitpacked_ccw_90
    rw [if_neg (by omega)]
  · intro sx sy hx hy
    exact hbits sy sx hy hx

/-- Witness for C3 at the one-pixel buffer `[128]`. -/
theorem rotate_bitpacked_ccw_90_correct_witness :
    ∃ dst, rotate_bitpacked_ccw_90 [128] 1 1 = some dst ∧
      dst.length = (1 * 1 + 7) / 8 ∧
      ∀ sx sy, sx < 1 → sy < 1 →
        getBitAt dst ((1 - 1 - sx) * 1 + sy) = getBitAt [128] (sy * 1 + sx) :=
  rotate_bitpacked_ccw_90_correct [128] 1 1 (by decide)

theorem flip_spec (src : List Nat) (w h : Nat)
    (hlen : (w * h + 7) / 8 ≤ src.length) :
    ∃ dst, flip_bitpacked_horizontal src w h = some dst ∧
      dst.length = (w * h + 7) / 8 ∧
      (∀ v ∈ dst, v < 256) ∧
      (∀ y x, y < h → x < w →
        getBitAt dst (y * w + (w - 1 - x)) = getBitAt src (y * w + x)) ∧
      (∀ i, w * h ≤ i → getBitAt dst i = 0) := by
  have hcomm : w * h = h * w := Nat.mul_comm w h
  have hflt : ∀ y x, y < h → x < w →
      y * w + (w - 1 - x) < 8 * ((w * h + 7) / 8) := by
    intro y x hy hx
    have := flip_target_lt w h y x hy hx
    omega
  have hspec := bitScatter_spec src w h ((w * h + 7) / 8)
    (fun y x => y * w + (w - 1 - x)) hflt (flip_inj w h)
  obtain ⟨hl, hb, hbits, hoth⟩ := hspec
  refine ⟨_, ?_, hl, hb, hbits, ?_⟩
  · unfold flip_bitpacked_horizontal
    rw [if_neg (by omega)]
  · intro i hi
    refine hoth i ?_
    intro y x hy hx
    have := flip_target_lt w h y x hy hx
    show y * w + (w - 1 - x) ≠ i
    omega

theorem rot_spec (src : List Nat) (w h : Nat)
    (hlen : (w * h + 7) / 8 ≤ src.length) :
    ∃ dst, rotate_bitpacked_ccw_90 src w h = some dst ∧
      dst.length = (h * w + 7) / 8 ∧
      (∀ v ∈ dst, v < 256) ∧
      (∀ sy sx, sy < h → sx < w →
        getBitAt dst ((w - 1 - sx) * h + sy) = getBitAt src (sy * w + sx)) ∧
      (∀ i, h * w ≤ i → getBitAt dst i = 0) := by
  have hcomm : w * h = h * w := Nat.mul_comm w h
  have hflt : ∀ sy sx, sy < h → sx < w →
      (w - 1 - sx) * h + sy < 8 * ((h * w + 7) / 8) := by
    intro sy sx hy hx
    have := rot_target_lt w h sy sx hy hx
    omega
  have hspec := bitScatter_spec src w h ((h * w + 7) / 8)
    (fun sy sx => (w - 1 - sx) * h + sy) hflt (rot_inj w h)
  obtain ⟨hl, hb, hbits, hoth⟩ := hspec
  refine ⟨_, ?_, hl, hb, hbits, ?_⟩
  · unfold rotate_bitpacked_ccw_90
    rw [if_neg (by omega)]
  · intro i hi
    refine hoth i ?_
    intro sy sx hy hx
    have := rot_target_lt w h sy sx hy hx
    show (w - 1 - sx) * h + sy ≠ i
    omega

/-- C10: on any accepted input (length at least `ceil(w*h/8)`, padding bits
and extra bytes arbitrary), `rotate_bitpacked_ccw_90` and
`flip_bitpacked_horizontal` return buffers of exactly `ceil(out_w*out_h/8)`
bytes whose padding bits past the last valid pixel index are all zero: the
destination is zero-initialized and only valid pixel indices are set. -/
theorem transforms_output_padding_zero (src : List Nat) (w h : Nat)
    (hlen : (w * h + 7) / 8 ≤ src.length) :
    (∃ dst, rotate_bitpacked_ccw_90 src w h = some dst ∧
      dst.length = (h * w + 7) / 8 ∧ ∀ i, h * w ≤ i → getBitAt dst i = 0) ∧
    (∃ dst, flip_bitpacked_horizontal src w h = some dst ∧
      dst.length = (w * h + 7) / 8 ∧ ∀ i, w * h ≤ i → getBitAt dst i = 0) := by
  obtain ⟨dr, hdr, hrl, _, _, hrpad⟩ := rot_spec src w h hlen
  obtain ⟨df, hdf, hfl, _, _, hfpad⟩ := flip_spec src w h hlen
  exact ⟨⟨dr, hdr, hrl, hrpad⟩, ⟨df, hdf, hfl, hfpad⟩⟩

/-- Witness for C10 at the one-pixel buffer `[255]` (padding bits set in the
input, still cleared in both outputs). -/
theorem transforms_output_padding_zero_witness :
    (∃ dst, rotate_bitpacked_ccw_90 [255] 1 1 = some dst ∧
      dst.length = (1 * 1 + 7) / 8 ∧ ∀ i, 1 * 1 ≤ i → getBitAt dst i = 0) ∧
    (∃ dst, flip_bitpacked_horizontal [255] 1 1 = some dst ∧
      dst.length = (1 * 1 + 7) / 8 ∧ ∀ i, 1 * 1 ≤ i → getBitAt dst i = 0) :=
  transforms_output_padding_zero [255] 1 1 (by decide)

/-- Counterexample to C5 as stated: a two-byte buffer for 1×1 dimensions has
length different from `ceil(1*1/8) = 1`, yet `rotate_bitpacked_ccw_90`
succeeds (the code only rejects buffers that are too short, silently ignoring
extra bytes). -/
theorem oversized_buffer_accepted :
    ([0, 0] : List Nat).length ≠ (1 * 1 + 7) / 8 ∧
      rotate_bitpacked_ccw_90 [0, 0] 1 1 = some [0] ∧
      flip_bitpacked_horizontal [0, 0] 1 1 = some [0] := by
  refine ⟨by decide, by decide, by decide⟩

/-- C5 (amended): `rotate_bitpacked_ccw_90` and `flip_bitpacked_horizontal`
fail with the size-mismatch error exactly when the input buffer is shorter
than `ceil(w*h/8)`; in particular no buffer shorter than that ever
succeeds. -/
theorem transforms_size_check (src : List Nat) (w h : Nat) :
    (rotate_bitpacked_ccw_90 src w h = none ↔ src.length < (w * h + 7) / 8) ∧
    (flip_bitpacked_horizontal src w h = none ↔ src.length < (w * h + 7) / 8) := by
  constructor
  · unfold rotate_bitpacked_ccw_90
    split
    · exact iff_of_true rfl (by omega)
    · exact iff_of_false (by simp) (by omega)
  · unfold flip_bitpacked_horizontal
    split
    · exact iff_of_true rfl (by omega)
    · exact iff_of_false (by simp) (by omega)

theorem idx_decomp (w h idx : Nat) (hidx : idx < w * h) :
    ∃ y x, y < h ∧ x < w ∧ idx = y * w + x := by
  rcases Nat.eq_zero_or_pos w with rfl | hw
  · rw [Nat.zero_mul] at hidx
    omega
  refine ⟨idx / w, idx % w, ?_, Nat.mod_lt _ hw, ?_⟩
  · rw [Nat.div_lt_iff_lt_mul hw, Nat.mul_comm h w]
    exact hidx
  · rw [Nat.mul_comm]
    exact (Nat.div_add_mod idx w).symm

theorem getBitAt_of_byte (d : List Nat) (j k : Nat) (hk : k < 8) :
    getBitAt d (8 * j + (7 - k)) = if (d.getD j 0).testBit k then 1 else 0 := by
  unfold getBitAt
  have h1 : (8 * j + (7 - k)) / 8 = j := by omega
  have h2 : 7 - (8 * j + (7 - k)) % 8 = k := by omega
  rw [h1, h2]

theorem bit_if_inj (p q : Bool) (he : (if p then 1 else 0 : Nat) = if q then 1 else 0) :
    p = q := by
  cases p <;> cases q <;> simp_all

theorem byte_eq_of_bits_eq (a b : Nat) (ha : a < 256) (hb : b < 256)
    (he : ∀ k, k < 8 → a.testBit k = b.testBit k) : a = b := by
  apply Nat.eq_of_testBit_eq
  intro k
  by_cases hk : k < 8
  · exact he k hk
  · have h8 : (2 : Nat) ^ 8 ≤ 2 ^ k := Nat.pow_le_pow_right (by omega) (by omega)
    rw [Nat.testBit_lt_two_pow (by omega), Nat.testBit_lt_two_pow (by omega)]

/-- Counterexample to C9 as stated: the buffer `[1]` with 1×1 dimensions has
length `ceil(1*1/8) = 1`, but two horizontal flips return `[0]`, not `[1]` —
the set padding bit of the input is cleared by the zero-initialized scatter. -/
theorem flip_twice_differs :
    ([1] : List Nat).length = (1 * 1 + 7) / 8 ∧
      (flip_bitpacked_horizontal [1] 1 1).bind
        (fun c => flip_bitpacked_horizontal c 1 1) = some [0] ∧
      ([0] : List Nat) ≠ [1] := by
  refine ⟨by decide, by decide, by decide⟩

/-- C9 (amended): for buffers of exactly `ceil(w*h/8)` bytes whose bytes are
below 256 and whose padding bits past pixel index `w*h-1` are zero, applying
`flip_bitpacked_horizontal` twice with the same dimensions returns the
original buffer. -/
theorem flip_bitpacked_horizontal_involutive (b : List Nat) (w h : Nat)
    (hlen : b.length = (w * h + 7) / 8)
    (hbyte : ∀ v ∈ b, v < 256)
    (hpad : ∀ i, w * h ≤ i → getBitAt b i = 0) :
    (flip_bitpacked_horizontal b w h).bind
      (fun c => flip_bitpacked_horizontal c w h) = some b := by
  obtain ⟨c, hc, hcl, hcb, hcbits, hcpad⟩ := flip_spec b w h (by omega)
  obtain ⟨d, hd, hdl, hdb, hdbits, hdpad⟩ := flip_spec c w h (by omega)
  rw [hc]
  show flip_bitpacked_horizontal c w h = some b
  rw [hd]
  have hbit_all : ∀ i, getBitAt d i = getBitAt b i := by
    intro idx
    by_cases hi : idx < w * h
    · obtain ⟨y, x, hy, hx, rfl⟩ := idx_decomp w h idx hi
      have hx2 : w - 1 - x < w := by omega
      have h1 := hdbits y (w - 1 - x) hy hx2
      have hxx : w - 1 - (w - 1 - x) = x := by omega
      rw [hxx] at h1
      rw [h1, hcbits y x hy hx]
    · rw [hdpad _ (by omega), hpad _ (by omega)]
  have hbytes : ∀ j, d.getD j 0 = b.getD j 0 := by
    intro j
    apply byte_eq_of_bits_eq _ _ (getD_lt_256 d hdb j) (getD_lt_256 b hbyte j)
    intro k hk
    have hb := hbit_all (8 * j + (7 - k))
    rw [getBitAt_of_byte d j k hk, getBitAt_of_byte b j k hk] at hb
    exact bit_if_inj _ _ hb
  have hdb' : d = b := by
    apply List.ext_getElem (by omega)
    intro i h1 h2
    have hi := hbytes i
    rw [List.getD_eq_getElem d 0 h1, List.getD_eq_getElem b 0 h2] at hi
    exact hi
  rw [hdb']

/-- Witness for the amended C9 at the all-zero one-byte 2×2 buffer. -/
theorem flip_bitpacked_horizontal_involutive_witness :
    (flip_bitpacked_horizontal [0] 2 2).bind
      (fun c => flip_bitpacked_horizontal c 2 2) = some [0] :=
  flip_bitpacked_horizontal_involutive [0] 2 2 (by decide) (by decide)
    (fun i _ => by
      unfold getBitAt
      rw [getD_eq_opt]
      cases hi : ([0] : List Nat)[i / 8]? with
      | none => simp
      | some v =>
        have hv : v = 0 := by
          rcases List.getElem?_eq_some_iff.mp hi with ⟨hlt, hv⟩
          simp at hlt
          simp [hlt] at hv
          omega
        simp [hv])

/-- Shallow embedding of the raw-bytes branch of `Display.display_image` from
`display.py`: when any transform flag is set, apply the horizontal flip, then
the counter-clockwise rotation (at the pre-rotation source dimensions), then
the color inversion, sequentially, propagating a size-mismatch failure; with
no flags set the data is passed through unchanged. -/
def display_image (data : List Nat) (w h : Nat) (flipH rot inv : Bool) :
    Option (List Nat) :=
  if flipH || rot || inv then
    ((if flipH then flip_bitpacked_horizontal data w h else some data).bind
      (fun d1 => if rot then rotate_bitpacked_ccw_90 d1 w h else some d1)).map
      (fun d2 => if inv then invert_bitpacked_colors d2 else d2)
  else some data

/-- C4: for every combination of the `flip_horizontal`, `rotate` and
`invert_colors` flags, `display_image` on raw packed data equals the
composition flip-then-rotate-then-invert (no vertical flip is applicable on
this path), and this order is not interchangeable: on the non-square buffer
`[128]` of dimensions 2×1 the code's order yields `[128]` while rotating
before flipping yields `[64]`. -/
theorem display_image_transform_order :
    (∀ data w h fH rot inv,
      display_image data w h fH rot inv =
        ((if fH then flip_bitpacked_horizontal data w h else some data).bind
          (fun d1 => if rot then rotate_bitpacked_ccw_90 d1 w h else some d1)).map
          (fun d2 => if inv then invert_bitpacked_colors d2 else d2)) ∧
    display_image [128] 2 1 true true false = some [128] ∧
    (rotate_bitpacked_ccw_90 [128] 2 1).bind
      (fun d => flip_bitpacked_horizontal d 1 2) = some [64] ∧
    some ([128] : List Nat) ≠ some [64] := by
  refine ⟨?_, by decide, by decide, by decide⟩
  intro data w h fH rot inv
  unfold display_image
  split
  · rfl
  · rename_i hall
    simp only [Bool.or_eq_true, not_or, Bool.not_eq_true] at hall
    obtain ⟨⟨hf, hr⟩, hi⟩ := hall
    subst hf
    subst hr
    subst hi
    simp

/-- The in-memory state of `ImageCacheManager` from `display.py`: the
insertion/promotion-ordered key-to-temp-path association (`_cache` with its
parallel `_temp_files` dict, oldest first) plus the configured maximum entry
count.  Cache keys and temp paths are abstracted as naturals. -/
structure ImageCacheManager where
  entries : List (Nat × Nat)
  maxSize : Nat

/-- Temp-file deletion `os.unlink(temp_path)` on the modelled filesystem,
a predicate recording which paths exist. -/
def fsDelete (fs : Nat → Bool) (p : Nat) : Nat → Bool :=
  fun q => if q = p then false else fs q

/-- The eviction loop of `ImageCacheManager.put`:
`while len(self._cache) >= self.max_size:` pop the oldest (first) entry via
`_remove_entry`, which deletes its temp file unless another live entry still
references the same path.  The Python loop errors out for `max_size = 0` on
an emptied dict; the claims assume `max_size >= 1`, where this recursion is
exact. -/
def evictLoop (maxSize : Nat) :
    List (Nat × Nat) → (Nat → Bool) → List (Nat × Nat) × (Nat → Bool)
  | [], fs => ([], fs)
  | (k, p) :: rest, fs =>
      if maxSize ≤ rest.length + 1 then
        evictLoop maxSize rest
          (if (rest.map Prod.snd).contains p then fs else fsDelete fs p)
      else ((k, p) :: rest, fs)

namespace ICM

/-- `ImageCacheManager.put`: evict down below capacity, then store the entry —
dict assignment to an existing key keeps its position, a new key appends at
the most-recently-used end.  Returns the new cache and filesystem. -/
def put (c : ImageCacheManager) (fs : Nat → Bool) (key path : Nat) :
    ImageCacheManager × (Nat → Bool) :=
  (⟨if (evictLoop c.maxSize c.entries fs).1.any (fun e => e.1 == key) then
      (evictLoop c.maxSize c.entries fs).1.map
        (fun e => if e.1 == key then (e.1, path) else e)
    else (evictLoop c.maxSize c.entries fs).1 ++ [(key, path)],
    c.maxSize⟩,
   (evictLoop c.maxSize c.entries fs).2)

/-- `ImageCacheManager.get`: a hit whose temp file still exists is promoted
to the most-recently-used end and its path returned; a hit whose temp file
was deleted externally is silently removed; a miss leaves the cache
unchanged.  `get` never touches the filesystem. -/
def get (c : ImageCacheManager) (fs : Nat → Bool) (key : Nat) :
    Option Nat × ImageCacheManager :=
  match c.entries.find? (fun e => e.1 == key) with
  | none => (none, c)
  | some (k, p) =>
      if fs p then
        (some p, ⟨c.entries.eraseP (fun e => e.1 == key) ++ [(k, p)], c.maxSize⟩)
      else
        (none, ⟨c.entries.eraseP (fun e => e.1 == key), c.maxSize⟩)

/-- Run a sequence of `put` conversions one after another. -/
def putList (c : ImageCacheManager) (fs : Nat → Bool) :
    List (Nat × Nat) → ImageCacheManager × (Nat → Bool)
  | [] => (c, fs)
  | (k, p) :: rest => putList (put c fs k p).1 (put c fs k p).2 rest

end ICM

theorem evictLoop_noop (maxSize : Nat) (es : List (Nat × Nat)) (fs : Nat → Bool)
    (hlt : es.length < maxSize) : evictLoop maxSize es fs = (es, fs) := by
  cases es with
  | nil => rfl
  | cons e rest =>
    obtain ⟨k, p⟩ := e
    unfold evictLoop
    rw [if_neg (by simp at hlt; omega)]

theorem evictLoop_once (maxSize : Nat) (k p : Nat) (rest : List (Nat × Nat))
    (fs : Nat → Bool) (hcap : maxSize = rest.length + 1) :
    evictLoop maxSize ((k, p) :: rest) fs =
      (rest, if (rest.map Prod.snd).contains p then fs else fsDelete fs p) := by
  unfold evictLoop
  rw [if_pos (by omega)]
  exact evictLoop_noop maxSize rest _ (by omega)

theorem evictLoop_length (maxSize : Nat) (es : List (Nat × Nat)) (fs : Nat → Bool)
    (hms : 1 ≤ maxSize) : (evictLoop maxSize es fs).1.length < maxSize := by
  induction es generalizing fs with
  | nil => simpa [evictLoop] using hms
  | cons e rest ih =>
    obtain ⟨k, p⟩ := e
    unfold evictLoop
    split
    · exact ih _
    · simp only [List.length_cons]
      omega

theorem put_at_capacity (maxSize k0 p0 key path : Nat) (rest : List (Nat × Nat))
    (fs : Nat → Bool) (hcap : maxSize = rest.length + 1)
    (hfresh : ∀ e ∈ (k0, p0) :: rest, e.1 ≠ key) :
    ICM.put ⟨(k0, p0) :: rest, maxSize⟩ fs key path =
      (⟨rest ++ [(key, path)], maxSize⟩,
       if (rest.map Prod.snd).contains p0 then fs else fsDelete fs p0) := by
  have hany : rest.any (fun e => e.1 == key) = false := by
    rw [List.any_eq_false]
    intro e he
    simpa using hfresh e (List.mem_cons_of_mem _ he)
  unfold ICM.put
  dsimp only
  rw [evictLoop_once maxSize k0 p0 rest fs hcap]
  dsimp only
  rw [hany]
  simp

theorem putList_append (c : ImageCacheManager) (fs : Nat → Bool)
    (l1 l2 : List (Nat × Nat)) :
    ICM.putList c fs (l1 ++ l2) =
      ICM.putList (ICM.putList c fs l1).1 (ICM.putList c fs l1).2 l2 := by
  induction l1 generalizing c fs with
  | nil => rfl
  | cons e rest ih =>
    obtain ⟨k, p⟩ := e
    simp only [List.cons_append, ICM.putList]
    exact ih _ _

theorem putList_fill (maxSize : Nat) (es : List (Nat × Nat)) (fs : Nat → Bool)
    (ks : List (Nat × Nat)) (hlen : es.length + ks.length ≤ maxSize)
    (hfresh : ∀ e ∈ ks, ∀ e' ∈ es, e'.1 ≠ e.1)
    (hnodup : (ks.map Prod.fst).Nodup) :
    ICM.putList ⟨es, maxSize⟩ fs ks = (⟨es ++ ks, maxSize⟩, fs) := by
  induction ks generalizing es fs with
  | nil => simp [ICM.putList]
  | cons kp rest ih =>
    obtain ⟨k, p⟩ := kp
    simp only [List.length_cons] at hlen
    rw [List.map_cons] at hnodup
    obtain ⟨hknotin, hndrest⟩ := List.nodup_cons.mp hnodup
    have hput : ICM.put ⟨es, maxSize⟩ fs k p = (⟨es ++ [(k, p)], maxSize⟩, fs) := by
      have hany : es.any (fun e => e.1 == k) = false := by
        rw [List.any_eq_false]
        intro e he
        simpa using hfresh (k, p) (by simp) e he
      unfold ICM.put
      dsimp only
      rw [evictLoop_noop maxSize es fs (by omega)]
      dsimp only
      rw [hany]
      simp
    simp only [ICM.putList]
    rw [hput]
    dsimp only
    rw [ih (es ++ [(k, p)]) fs ?_ ?_ hndrest]
    · rw [List.append_assoc]
      rfl
    · simp only [List.length_append, List.length_singleton]
      omega
    · intro e he e' he'
      rcases List.mem_append.mp he' with he' | he'
      · exact hfresh e (List.mem_cons_of_mem _ he) e' he'
      · have : e' = (k, p) := by simpa using he'
        subst this
        intro hke
        exact hknotin (hke ▸ List.mem_map_of_mem Prod.fst he)

/-- C6: with capacity `max_size ≥ 1`, a `put` into a cache at capacity evicts
exactly the single oldest entry before inserting, deleting its temp file
unless another live entry references the same path; inserting `max_size + 1`
distinct fingerprints into an empty cache leaves exactly `max_size` entries
with the oldest fingerprint absent; and no `put` ever leaves more than
`max_size` entries. -/
theorem cache_put_spec :
    (∀ (maxSize k0 p0 key path : Nat) (rest : List (Nat × Nat)) (fs : Nat → Bool),
      maxSize = rest.length + 1 →
      (∀ e ∈ (k0, p0) :: rest, e.1 ≠ key) →
      (ICM.put ⟨(k0, p0) :: rest, maxSize⟩ fs key path).1.entries =
          rest ++ [(key, path)] ∧
        (ICM.put ⟨(k0, p0) :: rest, maxSize⟩ fs key path).2 =
          (if (rest.map Prod.snd).contains p0 then fs else fsDelete fs p0)) ∧
    (∀ (n k0 p0 kz pz : Nat) (mid : List (Nat × Nat)) (fs : Nat → Bool),
      n = mid.length + 1 →
      ((((k0, p0) :: mid) ++ [(kz, pz)]).map Prod.fst).Nodup →
      (ICM.putList ⟨[], n⟩ fs (((k0, p0) :: mid) ++ [(kz, pz)])).1.entries.length = n ∧
        k0 ∉ (ICM.putList ⟨[], n⟩ fs
          (((k0, p0) :: mid) ++ [(kz, pz)])).1.entries.map Prod.fst) ∧
    (∀ (c : ImageCacheManager) (fs : Nat → Bool) (key path : Nat),
      1 ≤ c.maxSize → (ICM.put c fs key path).1.entries.length ≤ c.maxSize) := by
  refine ⟨?_, ?_, ?_⟩
  · intro maxSize k0 p0 key path rest fs hcap hfresh
    rw [put_at_capacity maxSize k0 p0 key path rest fs hcap hfresh]
    exact ⟨rfl, rfl⟩
  · intro n k0 p0 kz pz mid fs hcap hnodup
    rw [List.map_append, List.map_cons, List.map_singleton] at hnodup
    obtain ⟨hfront, hback, hdisj⟩ := List.nodup_append.mp hnodup
    have hfill := putList_fill n [] fs ((k0, p0) :: mid)
      (by simp; omega) (by simp) (by simpa using hfront)
    rw [putList_append, hfill]
    dsimp only
    have hfreshz : ∀ e ∈ (k0, p0) :: mid, e.1 ≠ kz := by
      intro e he hekz
      have hm1 : e.1 ∈ (k0, p0).1 :: List.map Prod.fst mid := by
        rcases List.mem_cons.mp he with rfl | he
        · exact List.mem_cons_self _ _
        · exact List.mem_cons_of_mem _ (List.mem_map_of_mem Prod.fst he)
      exact hdisj hm1 (by simp [hekz])
    have hput := put_at_capacity n k0 p0 kz pz mid fs hcap hfreshz
    simp only [List.nil_append, ICM.putList]
    rw [hput]
    dsimp only
    constructor
    · simp only [List.length_append, List.length_singleton]
      omega
    · rw [List.map_append, List.map_singleton]
      intro hmem
      rcases List.mem_append.mp hmem with hmem | hmem
      · exact (List.nodup_cons.mp hfront).1 hmem
      · exact hdisj (List.mem_cons_self _ _) hmem
  · intro c fs key path hms
    have hlt := evictLoop_length c.maxSize c.entries fs hms
    unfold ICM.put
    dsimp only
    split
    · rw [List.length_map]
      omega
    · rw [List.length_append, List.length_singleton]
      omega

/-- Witness for C6 with capacity 1: key 0 is evicted when key 1 is inserted,
two distinct inserts into an empty cache retain only the newer key, and a
`put` never exceeds the capacity. -/
theorem cache_put_spec_witness :
    ((ICM.put ⟨[(0, 10)], 1⟩ (fun _ => true) 1 11).1.entries = [] ++ [(1, 11)] ∧
      (ICM.put ⟨[(0, 10)], 1⟩ (fun _ => true) 1 11).2 =
        (if (([] : List (Nat × Nat)).map Prod.snd).contains 10 then (fun _ => true)
         else fsDelete (fun _ => true) 10)) ∧
    ((ICM.putList ⟨[], 1⟩ (fun _ => true)
        (((0, 10) :: []) ++ [(1, 11)])).1.entries.length = 1 ∧
      0 ∉ (ICM.putList ⟨[], 1⟩ (fun _ => true)
        (((0, 10) :: []) ++ [(1, 11)])).1.entries.map Prod.fst) ∧
    (ICM.put ⟨[], 1⟩ (fun _ => true) 2 12).1.entries.length ≤ 1 :=
  ⟨cache_put_spec.1 1 0 10 1 11 [] (fun _ => true) (by decide) (by decide),
   cache_put_spec.2.1 1 0 10 1 11 [] (fun _ => true) (by decide) (by decide),
   cache_put_spec.2.2 ⟨[], 1⟩ (fun _ => true) 2 12 (by decide)⟩

theorem find_unique_key (l : List (Nat × Nat)) (key p : Nat)
    (hnd : (l.map Prod.fst).Nodup) (hmem : (key, p) ∈ l) :
    l.find? (fun e => e.1 == key) = some (key, p) := by
  induction l with
  | nil => simp at hmem
  | cons e rest ih =>
    obtain ⟨k0, p0⟩ := e
    rw [List.map_cons] at hnd
    obtain ⟨hnotin, hndrest⟩ := List.nodup_cons.mp hnd
    by_cases hk : k0 = key
    · subst hk
      rw [List.find?_cons_of_pos _ (by simp)]
      rcases List.mem_cons.mp hmem with he | he
      · rw [he]
      · exact absurd (List.mem_map_of_mem Prod.fst he) hnotin
    · rw [List.find?_cons_of_neg _ (by simp [hk])]
      refine ih hndrest ?_
      rcases List.mem_cons.mp hmem with he | he
      · exact absurd (congrArg Prod.fst he) (by simpa using fun hh => hk hh.symm)
      · exact he

/-- C7: `get` returns the cached path exactly when the key is present and the
temp file exists, promoting the hit to most-recently-used; a present key with
a missing file is silently removed and `None` returned; an absent key returns
`None` and leaves the cache unchanged. -/
theorem cache_get_spec (c : ImageCacheManager) (fs : Nat → Bool) (key : Nat) :
    ((∀ e ∈ c.entries, e.1 ≠ key) → ICM.get c fs key = (none, c)) ∧
    (∀ p, (c.entries.map Prod.fst).Nodup → (key, p) ∈ c.entries →
      ((fs p = true →
        ICM.get c fs key =
          (some p,
           ⟨c.entries.eraseP (fun e => e.1 == key) ++ [(key, p)], c.maxSize⟩)) ∧
       (fs p = false →
        ICM.get c fs key =
          (none, ⟨c.entries.eraseP (fun e => e.1 == key), c.maxSize⟩)))) := by
  constructor
  · intro habs
    unfold ICM.get
    rw [List.find?_eq_none.mpr (by
      intro e he
      simpa using habs e he)]
  · intro p hnd hmem
    unfold ICM.get
    rw [find_unique_key c.entries key p hnd hmem]
    constructor
    · intro hfs
      dsimp only
      rw [if_pos hfs]
    · intro hfs
      dsimp only
      rw [if_neg (by simp [hfs])]

/-- Witness for C7: a hit on key 0 with a live file is promoted, a hit with a
dead file is dropped, and a missing key is a miss. -/
theorem cache_get_spec_witness :
    ICM.get ⟨[(0, 10), (1, 11)], 5⟩ (fun _ => true) 0 =
      (some 10,
       ⟨([(0, 10), (1, 11)] : List (Nat × Nat)).eraseP (fun e => e.1 == 0) ++ [(0, 10)],
        5⟩) :=
  ((cache_get_spec ⟨[(0, 10), (1, 11)], 5⟩ (fun _ => true) 0).2 10 (by decide)
    (by decide)).1 (by decide)

/-- Crop-origin computation of the CROP_CENTER branch of
`Display._scale_image`, along one axis, given the scaled and target sizes
(the Lanczos resize producing the scaled size is outside this model):
`(scaled - target) // 2` when no explicit position is supplied (Python floor
division, `Int.fdiv`), else the clamp `max(0, min(crop, scaled - target))`. -/
def crop_origin (scaled target : Int) (crop : Option Int) : Int :=
  match crop with
  | none => Int.fdiv (scaled - target) 2
  | some cx => max 0 (min cx (scaled - target))

/-- The crop box `(left, top, right, bottom)` handed to `Image.crop` by the
CROP_CENTER branch: `right = left + target_width` and
`bottom = top + target_height`. -/
def crop_window (scaledW scaledH targetW targetH : Int) (cx cy : Option Int) :
    Int × Int × Int × Int :=
  (crop_origin scaledW targetW cx, crop_origin scaledH targetH cy,
   crop_origin scaledW targetW cx + targetW,
   crop_origin scaledH targetH cy + targetH)

/-- C8: in CROP_CENTER scaling the default crop origin is the centered
position `(scaled-target)/2` (floor; the two margins differ by at most one
and are nonnegative when the scaled size covers the target), an explicitly
supplied origin is clamped into `[0, scaled-target]` rather than rejected
(and kept unchanged when already in range), and the crop window is always
exactly `target_w × target_h`. -/
theorem crop_center_spec (sW sH tW tH : Int) (cx cy : Option Int) :
    (tW ≤ sW →
      0 ≤ crop_origin sW tW none ∧
        2 * crop_origin sW tW none ≤ sW - tW ∧
        sW - tW < 2 * crop_origin sW tW none + 2) ∧
    (∀ v, tW ≤ sW →
      0 ≤ crop_origin sW tW (some v) ∧ crop_origin sW tW (some v) ≤ sW - tW) ∧
    (∀ v, 0 ≤ v → v ≤ sW - tW → crop_origin sW tW (some v) = v) ∧
    ((crop_window sW sH tW tH cx cy).2.2.1 - (crop_window sW sH tW tH cx cy).1 =
        tW ∧
      (crop_window sW sH tW tH cx cy).2.2.2 -
          (crop_window sW sH tW tH cx cy).2.1 = tH) := by
  have hfd : crop_origin sW tW none = (sW - tW) / 2 := by
    unfold crop_origin
    exact Int.fdiv_eq_ediv _ (by omega)
  refine ⟨?_, ?_, ?_, ?_⟩
  · intro hts
    rw [hfd]
    omega
  · intro v hts
    unfold crop_origin
    constructor
    · exact le_max_left 0 _
    · rw [max_le_iff]
      exact ⟨by omega, le_trans (min_le_right _ _) (le_refl _)⟩
  · intro v h0 hle
    unfold crop_origin
    dsimp only
    rw [min_eq_left hle, max_eq_right h0]
  · unfold crop_window
    dsimp only
    omega

/-- Witness for C8 at scaled size 10, target 4: the default origin is 3, an
out-of-range origin 100 clamps to 6, an in-range origin 2 is kept, and the
window is 4 wide. -/
theorem crop_center_spec_witness :
    (0 ≤ crop_origin 10 4 none ∧ 2 * crop_origin 10 4 none ≤ 10 - 4 ∧
      10 - 4 < 2 * crop_origin 10 4 none + 2) ∧
    (0 ≤ crop_origin 10 4 (some 100) ∧ crop_origin 10 4 (some 100) ≤ 10 - 4) ∧
    crop_origin 10 4 (some 2) = 2 ∧
    (crop_window 10 10 4 4 (some 100) none).2.2.1 -
        (crop_window 10 10 4 4 (some 100) none).1 = 4 :=
  ⟨(crop_center_spec 10 10 4 4 (some 100) none).1 (by decide),
   (crop_center_spec 10 10 4 4 (some 100) none).2.1 100 (by decide),
   (crop_center_spec 10 10 4 4 (some 100) none).2.2.1 2 (by decide) (by decide),
   ((crop_center_spec 10 10 4 4 (some 100) none).2.2.2).1⟩

end Distiller
